import Mathlib

/-
Verification of the diffraction-vector pipeline (pyxem/signals/diffraction_vectors.py)
and the marker-attachment helper (pixstem/marker_tools.py).

Conventions of the embedding:
* A diffraction vector is a pair of rationals.
* The source compares Euclidean distances (scipy.spatial.distance_matrix)
  with a nonnegative threshold; since squaring is monotone on nonnegative
  reals, the embedding carries squared distances throughout and thresholds
  are given by their squares (`t2` stands for threshold squared).
* The scan-position grid is the row-major list of per-position vector lists,
  which is exactly the order `_iterate_signal` visits; the 2D and 1D
  navigation cases of the source collapse to "the first list of the grid".
* Fallible Python indexing is modelled with `Except`.
-/

namespace Pyxem

/-- A diffraction vector: a 2D reciprocal-space coordinate (row, column). -/
abbrev Vec := ℚ × ℚ

/-- Squared Euclidean distance between two vectors (see the conventions
above: the source's Euclidean distances are carried squared). -/
def dist2 (u v : Vec) : ℚ := (u.1 - v.1) ^ 2 + (u.2 - v.2) ^ 2

/-- Errors raised by the Python code in the embedding. Indexing an empty
list raises IndexError; the spec additionally postulates a dedicated
EmptySeedError, included as a distinct constructor so that claims about it
can be stated, although the source never defines or raises it. -/
inductive PyErr where
  | indexError
  | emptySeedError
deriving DecidableEq, Repr

/-- Modelled from the spec: `get_indices_from_distance_matrix` is imported
by diffraction_vectors.py from pyxem.utils.vector_utils, which is not part
of this source tree. Per the spec, the selector receives the matrix of
distances with one row per candidate and returns "the set of candidate row
indices for which every entry in that row exceeds threshold". Entries are
squared distances and `t2` is the squared threshold. -/
def get_indices_from_distance_matrix (m : List (List ℚ)) (t2 : ℚ) : List ℕ :=
  (List.range m.length).filter (fun i => (m.getD i []).all (fun d => decide (t2 < d)))

/-- Rows of squared distances from each candidate of `vlist` to every
accepted vector of `gvlist`. This is the transpose of the source's
`distance_matrix(gvlist, vlist)` (there candidates are columns); selecting
rows here is selecting columns there. -/
def candidate_rows (gvlist vlist : List Vec) : List (List ℚ) :=
  vlist.map (fun v => gvlist.map (fun g => dist2 g v))

/-- The vectors of `vlist` selected as new against the accepted set
`gvlist`: the source's `vlist[new_indices]`, in order of appearance. -/
def selected_new (t2 : ℚ) (gvlist vlist : List Vec) : List Vec :=
  (get_indices_from_distance_matrix (candidate_rows gvlist vlist) t2).filterMap
    (fun i => vlist[i]?)

/-- One iteration of the incremental loop of get_unique_vectors (source
lines 123-130): append the newly selected vectors, but only when
`gvlist_new.any()` holds, which is NumPy's truth test on the array's
entries (some entry is nonzero), not an emptiness test. -/
def stepPosition (t2 : ℚ) (gvlist vlist : List Vec) : List Vec :=
  let gvlist_new := selected_new t2 gvlist vlist
  if gvlist_new.any (fun v => decide (v.1 ≠ 0) || decide (v.2 ≠ 0)) then
    gvlist ++ gvlist_new
  else gvlist

/-- Number of members of `gvlist` (counted with multiplicity, one per row)
whose squared distance to `v` is at most the squared threshold: the
source's `np.sum(distances[:, i] <= distance_threshold)` for the column `i`
holding `v`. -/
def countWithin (t2 : ℚ) (gvlist : List Vec) (v : Vec) : ℕ :=
  (gvlist.filter (fun g => decide (dist2 g v ≤ t2))).length

/-- Global consistency pass of get_unique_vectors (source lines 131-138):
every column whose within-threshold count exceeds 1 is marked and all
marked rows are deleted in one batch. The deletion criterion depends only
on the entry's value and on the whole list, so batch deletion by index
equals filtering by value. -/
def consistency_pass (t2 : ℚ) (gvlist : List Vec) : List Vec :=
  gvlist.filter (fun v => decide (countWithin t2 gvlist v ≤ 1))

/-- Embedding of DiffractionVectors.get_unique_vectors (source lines
102-142). The accepted set is seeded with `self.data[0,0][0]`, the first
vector of the first scan position; indexing an empty grid or an empty
first list raises IndexError. The loop then visits every position
(`_iterate_signal` includes the first), and the consistency pass runs on
the final accepted list. -/
def get_unique_vectors (grid : List (List Vec)) (t2 : ℚ) : Except PyErr (List Vec) :=
  match grid with
  | [] => .error .indexError
  | first :: _ =>
    match first with
    | [] => .error .indexError
    | v0 :: _ =>
      let gvlist := grid.foldl (fun acc vlist => stepPosition t2 acc vlist) [v0]
      .ok (consistency_pass t2 gvlist)

/-- Strict lower bounds against a list minimum are exactly pointwise strict
lower bounds (with the `WithTop` convention for the empty list). -/
theorem lt_minimum_iff (t : ℚ) (l : List ℚ) :
    (t : WithTop ℚ) < l.minimum ↔ ∀ d ∈ l, t < d := by
  induction l with
  | nil => simp [List.minimum_nil]
  | cons a l ih => simp [List.minimum_cons, lt_min_iff, ih, WithTop.coe_lt_coe]

/-- C1: for every distance matrix of non-negative entries and every
threshold t ≥ 0 (both given squared), the spec-modelled selector returns
exactly the candidate indices whose minimum entry is strictly greater than
the threshold; a candidate with at least one entry at or below the
threshold is excluded. -/
theorem C1_select_new_indices (m : List (List ℚ)) (t2 : ℚ)
    (hm : ∀ row ∈ m, ∀ d ∈ row, 0 ≤ d) (ht : 0 ≤ t2) :
    ∀ i, i ∈ get_indices_from_distance_matrix m t2 ↔
      i < m.length ∧ (t2 : WithTop ℚ) < (m.getD i []).minimum := by
  intro i
  simp [get_indices_from_distance_matrix, List.mem_filter, List.mem_range,
    List.all_eq_true, decide_eq_true_eq, lt_minimum_iff]

/-- Witness for C1 at the concrete matrix [[0], [200]] with squared
threshold 1/4: the hypotheses hold there and the characterisation applies. -/
theorem C1_select_new_indices_witness :
    (∀ row ∈ [[(0 : ℚ)], [200]], ∀ d ∈ row, 0 ≤ d) ∧ (0 : ℚ) ≤ 1 / 4 ∧
      ∀ i, i ∈ get_indices_from_distance_matrix [[(0 : ℚ)], [200]] (1 / 4) ↔
        i < ([[(0 : ℚ)], [200]] : List (List ℚ)).length ∧
          ((1 / 4 : ℚ) : WithTop ℚ) < (([[(0 : ℚ)], [200]] : List (List ℚ)).getD i []).minimum :=
  ⟨by norm_num, by norm_num,
    C1_select_new_indices [[(0 : ℚ)], [200]] (1 / 4) (by norm_num) (by norm_num)⟩

theorem dist2_self (u : Vec) : dist2 u u = 0 := by
  simp [dist2]

theorem dist2_comm (u v : Vec) : dist2 u v = dist2 v u := by
  unfold dist2; ring

theorem two_le_length_of_mem_ne {a b : Vec} {l : List Vec}
    (ha : a ∈ l) (hb : b ∈ l) (hab : a ≠ b) : 2 ≤ l.length := by
  match l with
  | [] => cases ha
  | [x] =>
    simp only [List.mem_singleton] at ha hb
    exact absurd (ha.trans hb.symm) hab
  | x :: y :: rest =>
    simp only [List.length_cons]
    omega

theorem countWithin_two_le {t2 : ℚ} {l : List Vec} {a b : Vec}
    (h0 : 0 ≤ t2) (ha : a ∈ l) (hb : b ∈ l) (hab : a ≠ b)
    (hd : dist2 a b ≤ t2) : 2 ≤ countWithin t2 l a := by
  unfold countWithin
  have hma : a ∈ l.filter (fun g => decide (dist2 g a ≤ t2)) :=
    List.mem_filter.mpr ⟨ha, by simp [dist2_self]; exact h0⟩
  have hmb : b ∈ l.filter (fun g => decide (dist2 g a ≤ t2)) :=
    List.mem_filter.mpr ⟨hb, by simp [dist2_comm b a]; exact (dist2_comm a b ▸ hd)⟩
  exact two_le_length_of_mem_ne hma hmb hab

theorem mem_consistency_pass {t2 : ℚ} {l : List Vec} {v : Vec} :
    v ∈ consistency_pass t2 l ↔ v ∈ l ∧ countWithin t2 l v ≤ 1 := by
  simp [consistency_pass, List.mem_filter]

theorem consistency_pass_nodup {t2 : ℚ} (h0 : 0 ≤ t2) (l : List Vec) :
    (consistency_pass t2 l).Nodup := by
  rw [List.nodup_iff_sublist]
  intro a hsub
  have hmem : a ∈ consistency_pass t2 l := hsub.subset (by simp)
  have h1 := (mem_consistency_pass.mp hmem).2
  have hsubl : List.Sublist [a, a] l := hsub.trans (List.filter_sublist l)
  have h2 : 2 ≤ countWithin t2 l a := by
    unfold countWithin
    have hfs : List.Sublist ([a, a].filter (fun g => decide (dist2 g a ≤ t2)))
        (l.filter (fun g => decide (dist2 g a ≤ t2))) := hsubl.filter _
    have heq : [a, a].filter (fun g => decide (dist2 g a ≤ t2)) = [a, a] := by
      simp [dist2_self, h0]
    rw [heq] at hfs
    simpa using hfs.length_le
  omega

theorem length_le_one_of_all_eq {v : Vec} {l' out : List Vec} (hsub : List.Sublist l' out)
    (hnd : out.Nodup) (hall : ∀ g ∈ l', g = v) : l'.length ≤ 1 := by
  match l', hall with
  | [], _ => simp
  | [g], _ => simp
  | g1 :: g2 :: rest, hall =>
    exfalso
    have h1 : g1 = v := hall g1 (by simp)
    have h2 : g2 = v := hall g2 (by simp)
    have hvv : List.Sublist [v, v] (g1 :: g2 :: rest) := by
      rw [h1, h2]
      exact List.Sublist.cons₂ v (List.Sublist.cons₂ v (List.nil_sublist rest))
    exact (List.nodup_iff_sublist.mp hnd v) (hvv.trans hsub)

theorem consistency_pass_apart {t2 : ℚ} {l : List Vec} {a b : Vec} (h0 : 0 ≤ t2)
    (ha : a ∈ consistency_pass t2 l) (hb : b ∈ consistency_pass t2 l)
    (hab : a ≠ b) : t2 < dist2 a b := by
  by_contra hlt
  push_neg at hlt
  have ha' := mem_consistency_pass.mp ha
  have hb' := mem_consistency_pass.mp hb
  have := countWithin_two_le h0 ha'.1 hb'.1 hab hlt
  omega

theorem consistency_pass_pairwise {t2 : ℚ} (h0 : 0 ≤ t2) (l : List Vec) :
    (consistency_pass t2 l).Pairwise (fun u v => t2 < dist2 u v) := by
  have hnd : (consistency_pass t2 l).Pairwise (fun u v => u ≠ v) :=
    consistency_pass_nodup h0 l
  exact hnd.imp_of_mem (fun hma hmb hne => consistency_pass_apart h0 hma hmb hne)

/-- C2: for every input grid and every nonnegative (squared) threshold, the
vector list returned by get_unique_vectors has no two distinct members
within the threshold of each other: every later member is strictly farther
than the threshold from every earlier member. -/
theorem C2_unique_vectors_pairwise_apart (grid : List (List Vec)) (t2 : ℚ)
    (out : List Vec) (h0 : 0 ≤ t2)
    (h : get_unique_vectors grid t2 = Except.ok out) :
    out.Pairwise (fun u v => t2 < dist2 u v) := by
  match grid with
  | [] => simp [get_unique_vectors] at h
  | [] :: rest => simp [get_unique_vectors] at h
  | (v0 :: first) :: rest =>
    simp only [get_unique_vectors, Except.ok.injEq] at h
    subst h
    exact consistency_pass_pairwise h0 _

/-- Witness for C2 at the one-position grid [[(0,0)]] with threshold 0. -/
theorem C2_unique_vectors_pairwise_apart_witness :
    (0 : ℚ) ≤ 0 ∧
      get_unique_vectors [[((0 : ℚ), (0 : ℚ))]] 0 = Except.ok [((0 : ℚ), (0 : ℚ))] ∧
      ([((0 : ℚ), (0 : ℚ))] : List Vec).Pairwise (fun u v => (0 : ℚ) < dist2 u v) := by
  have heval : get_unique_vectors [[((0 : ℚ), (0 : ℚ))]] 0
      = Except.ok [((0 : ℚ), (0 : ℚ))] := by
    norm_num [get_unique_vectors, stepPosition, selected_new, candidate_rows,
      get_indices_from_distance_matrix, consistency_pass, countWithin, dist2,
      List.range_succ]
  exact ⟨le_refl 0, heval,
    C2_unique_vectors_pairwise_apart [[((0 : ℚ), (0 : ℚ))]] 0
      [((0 : ℚ), (0 : ℚ))] (le_refl 0) heval⟩

/-- C3: the global consistency pass is idempotent: applied to its own
output (for any accepted-vector list and nonnegative squared threshold) it
deletes nothing and returns the same list. -/
theorem C3_consistency_pass_idempotent (t2 : ℚ) (l : List Vec) (h0 : 0 ≤ t2) :
    consistency_pass t2 (consistency_pass t2 l) = consistency_pass t2 l := by
  have hnd := consistency_pass_nodup h0 l
  set out := consistency_pass t2 l with hout
  show out.filter (fun v => decide (countWithin t2 out v ≤ 1)) = out
  apply List.filter_eq_self.mpr
  intro v hv
  simp only [decide_eq_true_eq]
  have hall : ∀ g ∈ out.filter (fun g => decide (dist2 g v ≤ t2)), g = v := by
    intro g hg
    rcases List.mem_filter.mp hg with ⟨hgo, hgd⟩
    simp only [decide_eq_true_eq] at hgd
    by_contra hne
    exact absurd hgd (not_le.mpr (consistency_pass_apart h0 hgo hv hne))
  show countWithin t2 out v ≤ 1
  unfold countWithin
  exact length_le_one_of_all_eq (List.filter_sublist out) hnd hall

/-- Witness for C3 at the list [(0,0)] with threshold 0. -/
theorem C3_consistency_pass_idempotent_witness :
    (0 : ℚ) ≤ 0 ∧
      consistency_pass 0 (consistency_pass 0 [((0 : ℚ), (0 : ℚ))])
        = consistency_pass 0 [((0 : ℚ), (0 : ℚ))] :=
  ⟨le_refl 0, C3_consistency_pass_idempotent 0 [((0 : ℚ), (0 : ℚ))] (le_refl 0)⟩

/-- C4: end-to-end scenario: a 2x2 scan grid holding, in row-major order,
the single-vector lists [[0,0]], [[10,10]], [[0,0]], [[10,10]]; with
distance_threshold 0.5 (squared: 1/4), get_unique_vectors returns exactly
the two members [0,0] and [10,10]. -/
theorem C4_end_to_end_alternating :
    get_unique_vectors
        [[((0 : ℚ), (0 : ℚ))], [((10 : ℚ), (10 : ℚ))],
          [((0 : ℚ), (0 : ℚ))], [((10 : ℚ), (10 : ℚ))]] (1 / 4)
      = Except.ok [((0 : ℚ), (0 : ℚ)), ((10 : ℚ), (10 : ℚ))] := by
  norm_num [get_unique_vectors, stepPosition, selected_new, candidate_rows,
    get_indices_from_distance_matrix, consistency_pass, countWithin, dist2,
    List.range_succ, List.filterMap_cons, List.filterMap_nil,
    List.getElem?_cons_zero, List.getElem?_cons_succ, List.getElem?_nil]

/-- C5 counterexample: on a grid whose first scan position holds no
vectors, get_unique_vectors fails with the plain IndexError of indexing an
empty list, which is not the EmptySeedError the claim names. -/
theorem C5_counterexample :
    get_unique_vectors [[], [((1 : ℚ), (1 : ℚ))]] 0 = Except.error PyErr.indexError ∧
      (Except.error PyErr.indexError : Except PyErr (List Vec))
        ≠ Except.error PyErr.emptySeedError := by
  constructor
  · rfl
  · simp

/-- C5 amended: if the vector list at the first scan position is empty,
get_unique_vectors fails, but by raising the generic IndexError of
`self.data[0,0][0]` on an empty list; the source defines no EmptySeedError. -/
theorem C5_empty_seed_index_error (rest : List (List Vec)) (t2 : ℚ) :
    get_unique_vectors ([] :: rest) t2 = Except.error PyErr.indexError := rfl

/-- Parameters and point set of the DBSCAN fit performed by
get_vector_clusters. DBSCAN itself is sklearn, external to the repository,
so the clustering call is modelled by the arguments handed to it. -/
structure DBSCANCall where
  eps : ℚ
  min_samples : ℕ
  points : List Vec
deriving DecidableEq, Repr

/-- Embedding of DiffractionVectors.get_vector_clusters (source lines
144-174): `gvs = np.array([self.data[0,0][0]])` is the one-point array
holding the first vector of the first scan position, and DBSCAN(eps,
min_samples) is fitted on exactly that array. -/
def get_vector_clusters (grid : List (List Vec)) (eps : ℚ) (min_samples : ℕ) :
    Except PyErr DBSCANCall :=
  match grid with
  | [] => .error .indexError
  | first :: _ =>
    match first with
    | [] => .error .indexError
    | v0 :: _ => .ok ⟨eps, min_samples, [v0]⟩

/-- C8 counterexample: with the first scan position holding the two vectors
(0,0) and (5,5), the clusterer is fitted on the single point (0,0): the
stored vector (5,5) is not among the points passed to DBSCAN. -/
theorem C8_counterexample :
    get_vector_clusters [[((0 : ℚ), (0 : ℚ)), ((5 : ℚ), (5 : ℚ))]] (1 / 100) 10
        = Except.ok ⟨1 / 100, 10, [((0 : ℚ), (0 : ℚ))]⟩ ∧
      ((5 : ℚ), (5 : ℚ)) ∉ ([((0 : ℚ), (0 : ℚ))] : List Vec) := by
  constructor
  · rfl
  · intro hmem
    simp only [List.mem_singleton, Prod.mk.injEq] at hmem
    exact absurd hmem.1 (by norm_num)

/-- C8 amended: get_vector_clusters fits DBSCAN(eps, min_samples) on a
single point only, the first vector of the first scan position; the other
vectors stored at that position are not passed to the clusterer. -/
theorem C8_single_point_to_dbscan (v0 : Vec) (rest : List Vec)
    (tail : List (List Vec)) (eps : ℚ) (min_samples : ℕ) :
    get_vector_clusters ((v0 :: rest) :: tail) eps min_samples
      = Except.ok ⟨eps, min_samples, [v0]⟩ := rfl

/-- C9: in the incremental loop, if every vector selected as new at a scan
position has both coordinates exactly zero, the selected vectors are
silently discarded and not appended: the append is guarded by NumPy's
truth test on the selected array's elements (some entry nonzero), which is
false for all-zero entries, rather than by an emptiness test. -/
theorem C9_all_zero_selected_discarded (t2 : ℚ) (gvlist vlist : List Vec)
    (h : ∀ v ∈ selected_new t2 gvlist vlist, v = ((0 : ℚ), (0 : ℚ))) :
    stepPosition t2 gvlist vlist = gvlist := by
  have hfalse : (selected_new t2 gvlist vlist).any
      (fun v => decide (v.1 ≠ 0) || decide (v.2 ≠ 0)) = false := by
    rw [List.any_eq_false]
    intro v hv
    rw [h v hv]
    simp
  show (if (selected_new t2 gvlist vlist).any
      (fun v => decide (v.1 ≠ 0) || decide (v.2 ≠ 0)) then
        gvlist ++ selected_new t2 gvlist vlist
      else gvlist) = gvlist
  rw [hfalse]
  simp

/-- Witness for C9: accepted set [(10,10)], candidate list [(0,0)], squared
threshold 1/4. The origin is genuinely new (it is the whole selected list)
and the accepted set is nevertheless returned unchanged. -/
theorem C9_all_zero_selected_discarded_witness :
    selected_new (1 / 4 : ℚ) [((10 : ℚ), (10 : ℚ))] [((0 : ℚ), (0 : ℚ))]
        = [((0 : ℚ), (0 : ℚ))] ∧
      (∀ v ∈ selected_new (1 / 4 : ℚ) [((10 : ℚ), (10 : ℚ))] [((0 : ℚ), (0 : ℚ))],
        v = ((0 : ℚ), (0 : ℚ))) ∧
      stepPosition (1 / 4 : ℚ) [((10 : ℚ), (10 : ℚ))] [((0 : ℚ), (0 : ℚ))]
        = [((10 : ℚ), (10 : ℚ))] := by
  have hsel : selected_new (1 / 4 : ℚ) [((10 : ℚ), (10 : ℚ))] [((0 : ℚ), (0 : ℚ))]
      = [((0 : ℚ), (0 : ℚ))] := by
    norm_num [selected_new, candidate_rows, get_indices_from_distance_matrix,
      dist2, List.range_succ, List.filterMap_cons, List.filterMap_nil,
      List.getElem?_cons_zero, List.getElem?_cons_succ, List.getElem?_nil]
  have h : ∀ v ∈ selected_new (1 / 4 : ℚ) [((10 : ℚ), (10 : ℚ))] [((0 : ℚ), (0 : ℚ))],
      v = ((0 : ℚ), (0 : ℚ)) := by
    rw [hsel]
    simp
  exact ⟨hsel, h, C9_all_zero_selected_discarded _ _ _ h⟩

/-- A reciprocal-lattice point as produced by pymatgen's
get_points_in_sphere after the sort on source line 267: fractional
coordinates paired with the point's magnitude (the source's
`calc_peaks.T[1]`). -/
structure LatticePoint where
  coords : ℚ × ℚ × ℚ
  magnitude : ℚ
deriving DecidableEq, Repr

/-- The pair retained for one measured magnitude `g` (source lines
277-280): the lattice points whose squared magnitude difference is
strictly below the threshold, and those squared differences, both in
enumeration order (`np.where` preserves order). -/
def gvector_matches (calc_peaks : List LatticePoint) (magnitude_threshold : ℚ)
    (g : ℚ) : List LatticePoint × List ℚ :=
  (calc_peaks.filter (fun p => decide ((p.magnitude - g) ^ 2 < magnitude_threshold)),
    (calc_peaks.map (fun p => (p.magnitude - g) ^ 2)).filter
      (fun d => decide (d < magnitude_threshold)))

/-- Embedding of DiffractionVectors.get_gvector_indexation (source lines
234-288). The enumeration and sorting of `calc_peaks` from the pymatgen
structure (lines 265-267) is external to the repository, so the sorted
lattice-point list is taken as an input. The name `glengths` is free
(unbound) in the source function; modelled from the spec, which reads
"every measured vector magnitude at that position", as the row-major grid
of per-position measured-magnitude lists. The trailing
`if angular_threshold==None: pass else: pass` of the source is the final
match: both branches leave the result untouched. -/
def get_gvector_indexation (glengths : List (List ℚ))
    (calc_peaks : List LatticePoint) (magnitude_threshold : ℚ)
    (angular_threshold : Option ℚ) : List (List (List LatticePoint × List ℚ)) :=
  let gindex := glengths.map
    (fun mags => mags.map (gvector_matches calc_peaks magnitude_threshold))
  match angular_threshold with
  | none => gindex
  | some _ => gindex

theorem filter_map_comm {α β : Type} (f : α → β) (p : β → Bool) (l : List α) :
    (l.map f).filter p = (l.filter (fun a => p (f a))).map f := by
  induction l with
  | nil => rfl
  | cons a l ih =>
    simp only [List.map_cons, List.filter_cons]
    cases hpa : p (f a) <;> simp [hpa, ih]

/-- C6: for every scan position and every measured magnitude at that
position, the indexation grid holds one retained pair per measured
magnitude, and that pair keeps exactly the (lattice point, squared
magnitude difference) entries whose squared difference is strictly below
magnitude_threshold. -/
theorem C6_gvector_indexation_filters (glengths : List (List ℚ))
    (calc_peaks : List LatticePoint) (thr : ℚ) (ath : Option ℚ) (it j : ℕ)
    (mags : List ℚ) (g : ℚ)
    (h1 : glengths[it]? = some mags) (h2 : mags[j]? = some g) :
    ∃ cell pts diffs,
      (get_gvector_indexation glengths calc_peaks thr ath)[it]? = some cell ∧
      cell.length = mags.length ∧
      cell[j]? = some (pts, diffs) ∧
      (∀ p, p ∈ pts ↔ (p ∈ calc_peaks ∧ (p.magnitude - g) ^ 2 < thr)) ∧
      diffs = pts.map (fun p => (p.magnitude - g) ^ 2) := by
  refine ⟨mags.map (gvector_matches calc_peaks thr),
    (gvector_matches calc_peaks thr g).1, (gvector_matches calc_peaks thr g).2,
    ?_, ?_, ?_, ?_, ?_⟩
  · have hun : get_gvector_indexation glengths calc_peaks thr ath
        = glengths.map (fun mags => mags.map (gvector_matches calc_peaks thr)) := by
      cases ath <;> rfl
    rw [hun, List.getElem?_map, h1]
    rfl
  · simp
  · rw [List.getElem?_map, h2]
    rfl
  · intro p
    simp [gvector_matches, List.mem_filter]
  · exact filter_map_comm (fun p => (p.magnitude - g) ^ 2)
      (fun d => decide (d < thr)) calc_peaks

/-- Witness for C6 at a one-position grid with one measured magnitude 3,
one lattice point of magnitude 0, and threshold 100. -/
theorem C6_gvector_indexation_filters_witness :
    ([[(3 : ℚ)]] : List (List ℚ))[0]? = some [(3 : ℚ)] ∧
      ([(3 : ℚ)] : List ℚ)[0]? = some (3 : ℚ) ∧
      ∃ cell pts diffs,
        (get_gvector_indexation [[(3 : ℚ)]] [⟨(0, 0, 0), 0⟩] 100 none)[0]? = some cell ∧
        cell.length = ([(3 : ℚ)] : List ℚ).length ∧
        cell[0]? = some (pts, diffs) ∧
        (∀ p, p ∈ pts ↔ (p ∈ [(⟨(0, 0, 0), 0⟩ : LatticePoint)] ∧
          (p.magnitude - 3) ^ 2 < 100)) ∧
        diffs = pts.map (fun p => (p.magnitude - 3) ^ 2) :=
  ⟨rfl, rfl,
    C6_gvector_indexation_filters [[(3 : ℚ)]] [⟨(0, 0, 0), 0⟩] 100 none 0 0
      [(3 : ℚ)] 3 rfl rfl⟩

/-- C7: the result of get_gvector_indexation is independent of the
angular_threshold argument: for fixed magnitude grid, lattice points and
magnitude threshold, any two parameter values (None included) give
identical indexation grids. -/
theorem C7_angular_threshold_no_effect (glengths : List (List ℚ))
    (calc_peaks : List LatticePoint) (thr : ℚ) (a b : Option ℚ) :
    get_gvector_indexation glengths calc_peaks thr a
      = get_gvector_indexation glengths calc_peaks thr b := by
  cases a <;> cases b <;> rfl

section MarkerTools

variable {α : Type}

/-- A hyperspy metadata node (DictionaryTreeBrowser) as an
insertion-ordered association list: assigning to an existing name replaces
its value in place, assigning a fresh name appends, and `len` is the
number of entries. -/
def metadata_set (node : List (String × α)) (k : String) (v : α) :
    List (String × α) :=
  if node.any (fun p => p.1 == k) then
    node.map (fun p => if p.1 == k then (k, v) else p)
  else node ++ [(k, v)]

/-- Name given to the marker with running index i: the source's string
"marker" followed by the decimal index. -/
def marker_name (i : ℕ) : String := "marker" ++ Nat.repr i

/-- Embedding of pixstem.marker_tools._add_permanent_markers_to_signal
(source lines 160-184; the leading underscore is dropped for Lean): with
`marker_extra` the number of entries already in the Markers node, the i-th
marker of the list is stored under the name of index i + marker_extra.
When the signal has no Markers node yet the source first adds an empty
one, i.e. the fold starts from the empty list. -/
def add_permanent_markers_to_signal (node : List (String × α))
    (marker_list : List α) : List (String × α) :=
  let marker_extra := node.length
  marker_list.enum.foldl
    (fun nd q => metadata_set nd (marker_name (q.1 + marker_extra)) q.2) node

theorem map_fixes_of_forall {β : Type} {f : β → β} {l : List β}
    (h : ∀ p ∈ l, f p = p) : l.map f = l := by
  induction l with
  | nil => rfl
  | cons a l ih =>
    simp only [List.map_cons]
    rw [h a (by simp), ih (fun p hp => h p (by simp [hp]))]

theorem metadata_set_prefix {node tl : List (String × α)} {k : String} {v : α}
    (h : ∀ p ∈ node, p.1 ≠ k) :
    List.IsPrefix node (metadata_set (node ++ tl) k v) := by
  unfold metadata_set
  by_cases hany : (node ++ tl).any (fun p => p.1 == k)
  · rw [if_pos hany, List.map_append]
    have hid : node.map (fun p => if p.1 == k then (k, v) else p) = node := by
      apply map_fixes_of_forall
      intro p hp
      rw [if_neg (by simpa using h p hp)]
    rw [hid]
    exact List.prefix_append _ _
  · rw [if_neg hany, List.append_assoc]
    exact List.prefix_append _ _

theorem foldl_metadata_set_prefix (node : List (String × α)) (ps : List (ℕ × α)) :
    ∀ nd, List.IsPrefix node nd →
      (∀ p ∈ node, ∀ q ∈ ps, p.1 ≠ marker_name (q.1 + node.length)) →
      List.IsPrefix node
        (ps.foldl (fun nd q => metadata_set nd (marker_name (q.1 + node.length)) q.2) nd) := by
  induction ps with
  | nil =>
    intro nd hpre _
    simpa using hpre
  | cons q ps ih =>
    intro nd hpre hq
    simp only [List.foldl_cons]
    apply ih
    · rcases hpre with ⟨tl, rfl⟩
      exact metadata_set_prefix (fun p hp => hq p hp q (by simp))
    · intro p hp q' hq'
      exact hq p hp q' (by simp [hq'])

/-- C10 amended: add_permanent_markers_to_signal (and hence
add_peak_array_to_signal_as_markers) preserves every previously attached
marker entry, in place and unchanged, provided no existing entry carries a
generated name whose index is at least the current number of entries -- in
particular whenever the existing names are the canonical
marker0..marker(n-1) that this function itself assigns. Without that
proviso an existing entry can be overwritten. -/
theorem C10_markers_preserved (node : List (String × α)) (marker_list : List α)
    (h : ∀ p ∈ node, ∀ j < marker_list.length, p.1 ≠ marker_name (j + node.length)) :
    List.IsPrefix node (add_permanent_markers_to_signal node marker_list) := by
  apply foldl_metadata_set_prefix node marker_list.enum node (List.prefix_refl node)
  intro p hp q hq
  exact h p hp q.1 (List.fst_lt_of_mem_enum hq)

/-- Witness for C10 at a node holding the canonical entry marker0 and two
new markers: the names marker1 and marker2 collide with nothing and the
original entry survives as the prefix. -/
theorem C10_markers_preserved_witness :
    (∀ p ∈ [("marker0", (5 : ℕ))], ∀ j < ([(7 : ℕ), 8] : List ℕ).length,
        p.1 ≠ marker_name (j + ([("marker0", (5 : ℕ))] : List (String × ℕ)).length)) ∧
      List.IsPrefix [("marker0", (5 : ℕ))]
        (add_permanent_markers_to_signal [("marker0", (5 : ℕ))] [(7 : ℕ), 8]) :=
  ⟨by decide, C10_markers_preserved [("marker0", (5 : ℕ))] [(7 : ℕ), 8] (by decide)⟩

/-- C10 counterexample: a signal whose Markers node holds one entry that
happens to be named marker1: the next generated index is 1, so the first
new marker is stored under the same name marker1 and the existing entry is
overwritten rather than preserved. -/
theorem C10_counterexample :
    add_permanent_markers_to_signal [("marker1", (0 : ℕ))] [(1 : ℕ)]
        = [("marker1", (1 : ℕ))] ∧
      ("marker1", (0 : ℕ)) ∉ ([("marker1", (1 : ℕ))] : List (String × ℕ)) := by
  constructor
  · rfl
  · decide

end MarkerTools

end Pyxem
